import Mathlib

/-!
Verification of the tool-call planning and extraction protocol of
`Noodles/chat_server.py`: the balanced-bracket JSON extractor
(`_extract_json_objects`), the plan normalizer (`_parse_tool_plan_text`),
and the provider fallback orchestrator (the `chat` endpoint).

Pure Python functions are translated directly; the external effectful
collaborators (LLM providers, the MCP tool server) are modelled as an
explicit oracle (`Behavior`) supplying the result of each network call,
and Python exceptions are modelled with `Except`.
-/

set_option maxHeartbeats 1000000
set_option maxRecDepth 4000

/-- Model of a parsed Python JSON value as produced by `json.loads`:
`null`, booleans, numbers (the model covers the integer subset of JSON
numbers; float literals are rejected by the model parser), strings,
arrays, and objects (insertion-ordered key/value lists, keys unique). -/
inductive Json where
  | null : Json
  | bool (b : Bool) : Json
  | num (n : Int) : Json
  | str (s : String) : Json
  | arr (xs : List Json) : Json
  | obj (kvs : List (String × Json)) : Json

/-- Python truthiness of a JSON value: `None`, `False`, `0`, `""`, `[]`
and `{}` (written here as empty object) are falsy, everything else truthy. -/
def truthy : Json → Bool
  | .null => false
  | .bool b => b
  | .num n => n != 0
  | .str s => s ≠ ""
  | .arr xs => !xs.isEmpty
  | .obj kvs => !kvs.isEmpty

/-- Lookup of a key in a JSON object's field list (first match; the model
parser keeps keys unique, mirroring Python dict semantics). -/
def jget : List (String × Json) → String → Option Json
  | [], _ => none
  | (k, v) :: r, q => if k = q then some v else jget r q

/-- Python `key in dict`. -/
def hasKey (fields : List (String × Json)) (k : String) : Bool :=
  (jget fields k).isSome

/-- Python `dict.get(key)`: the value if present, else `None`. -/
def pyGet (fields : List (String × Json)) (k : String) : Json :=
  (jget fields k).getD .null

/-- Python `a or b` on JSON values: `a` if truthy, else `b`. -/
def pyOr (a b : Json) : Json :=
  if truthy a then a else b

/-- Python `repr` of a JSON value (used by `str()` on containers).
The model renders containers in Python's repr style; string-escaping
inside reprs is not reproduced, which no claim depends on. -/
def pyRepr : Json → String
  | .null => "None"
  | .bool true => "True"
  | .bool false => "False"
  | .num n => toString n
  | .str s => "'" ++ s ++ "'"
  | .arr xs => "[" ++ String.intercalate ", " (xs.attach.map (fun x => pyRepr x.1)) ++ "]"
  | .obj kvs =>
      "\x7b" ++
        String.intercalate ", "
          (kvs.attach.map (fun kv => "'" ++ kv.1.1 ++ "': " ++ pyRepr kv.1.2)) ++
      "\x7d"
decreasing_by
  · have := List.sizeOf_lt_of_mem x.2
    simp only [Json.arr.sizeOf_spec]
    omega
  · have h1 := List.sizeOf_lt_of_mem kv.2
    have h2 : sizeOf kv.1.2 < sizeOf kv.1 := by
      obtain ⟨k, v⟩ := kv.1
      simp only [Prod.mk.sizeOf_spec]
      omega
    simp only [Json.obj.sizeOf_spec]
    omega

/-- Python `str()` applied to a JSON value. -/
def pyStr : Json → String
  | .str s => s
  | j => pyRepr j

/-- JSON whitespace characters (as accepted by `json.loads`). -/
def jsonWs (c : Char) : Bool :=
  c = ' ' || c = '\t' || c = '\n' || c = '\r'

/-- Skip JSON whitespace. -/
def skipWs (s : List Char) : List Char :=
  s.dropWhile jsonWs

/-- Value of a hex digit, if any. -/
def hexVal (c : Char) : Option Nat :=
  if '0' ≤ c ∧ c ≤ '9' then some (c.toNat - '0'.toNat)
  else if 'a' ≤ c ∧ c ≤ 'f' then some (c.toNat - 'a'.toNat + 10)
  else if 'A' ≤ c ∧ c ≤ 'F' then some (c.toNat - 'A'.toNat + 10)
  else none

/-- Scan the body of a JSON string literal after the opening quote,
handling backslash escapes; returns the decoded characters and the rest
of the input after the closing quote. -/
def pStrChars : List Char → Except String (List Char × List Char)
  | [] => .error "unterminated string"
  | '"' :: rest => .ok ([], rest)
  | '\\' :: e :: rest =>
      match e with
      | '"' => (pStrChars rest).map (fun p => ('"' :: p.1, p.2))
      | '\\' => (pStrChars rest).map (fun p => ('\\' :: p.1, p.2))
      | '/' => (pStrChars rest).map (fun p => ('/' :: p.1, p.2))
      | 'b' => (pStrChars rest).map (fun p => ('\x08' :: p.1, p.2))
      | 'f' => (pStrChars rest).map (fun p => ('\x0c' :: p.1, p.2))
      | 'n' => (pStrChars rest).map (fun p => ('\n' :: p.1, p.2))
      | 'r' => (pStrChars rest).map (fun p => ('\r' :: p.1, p.2))
      | 't' => (pStrChars rest).map (fun p => ('\t' :: p.1, p.2))
      | 'u' =>
          match rest with
          | h1 :: h2 :: h3 :: h4 :: rest' =>
              match hexVal h1, hexVal h2, hexVal h3, hexVal h4 with
              | some a, some b, some c, some d =>
                  (pStrChars rest').map
                    (fun p => (Char.ofNat (((a * 16 + b) * 16 + c) * 16 + d) :: p.1, p.2))
              | _, _, _, _ => .error "invalid hex escape"
          | _ => .error "truncated hex escape"
      | _ => .error "invalid escape"
  | '\\' :: [] => .error "truncated escape"
  | c :: rest => (pStrChars rest).map (fun p => (c :: p.1, p.2))

/-- Parse a JSON integer literal (sign and digits). Python's `json.loads`
also accepts floats; the model rejects them (no claim involves numbers
beyond incidental integer values). -/
def pNum (s : List Char) : Except String (Json × List Char) :=
  let (neg, s1) := match s with
    | '-' :: r => (true, r)
    | _ => (false, s)
  let digits := s1.takeWhile Char.isDigit
  let rest := s1.dropWhile Char.isDigit
  if digits.isEmpty then .error "expected digits"
  else if digits.length > 1 ∧ digits.headD '0' = '0' then .error "leading zero"
  else
    match rest with
    | '.' :: _ => .error "float literals are outside the model"
    | 'e' :: _ => .error "float literals are outside the model"
    | 'E' :: _ => .error "float literals are outside the model"
    | _ =>
      let n : Nat := digits.foldl (fun acc c => acc * 10 + (c.toNat - '0'.toNat)) 0
      .ok (.num (if neg then -(n : Int) else (n : Int)), rest)

/-- Insert a key/value pair into an object's field list, replacing an
existing binding in place (Python dict assignment). -/
def insertKV : List (String × Json) → String → Json → List (String × Json)
  | [], k, v => [(k, v)]
  | (k', v') :: r, k, v =>
      if k' = k then (k', v) :: r else (k', v') :: insertKV r k v

mutual

/-- Fueled parser for a JSON value (model of Python's `json.loads`
recursive-descent decoder, restricted as documented on `Json`). -/
def pVal : Nat → List Char → Except String (Json × List Char)
  | 0, _ => .error "out of fuel"
  | fuel + 1, s =>
      match skipWs s with
      | [] => .error "empty input"
      | c :: rest =>
          if c = 'n' then
            match rest with
            | 'u' :: 'l' :: 'l' :: r => .ok (.null, r)
            | _ => .error "bad literal"
          else if c = 't' then
            match rest with
            | 'r' :: 'u' :: 'e' :: r => .ok (.bool true, r)
            | _ => .error "bad literal"
          else if c = 'f' then
            match rest with
            | 'a' :: 'l' :: 's' :: 'e' :: r => .ok (.bool false, r)
            | _ => .error "bad literal"
          else if c = '"' then
            (pStrChars rest).map (fun p => (.str (String.mk p.1), p.2))
          else if c = '[' then
            pArr fuel rest
          else if c = '\x7b' then
            pObj fuel rest
          else if c = '-' ∨ c.isDigit then
            pNum (c :: rest)
          else .error "unexpected character"

/-- Parse the inside of a JSON array after `[`. -/
def pArr : Nat → List Char → Except String (Json × List Char)
  | 0, _ => .error "out of fuel"
  | fuel + 1, s =>
      match skipWs s with
      | ']' :: r => .ok (.arr [], r)
      | _ => pArrLoop fuel s []

/-- Parse array elements separated by commas, up to `]`. -/
def pArrLoop : Nat → List Char → List Json → Except String (Json × List Char)
  | 0, _, _ => .error "out of fuel"
  | fuel + 1, s, acc =>
      match pVal fuel s with
      | .error e => .error e
      | .ok (v, s1) =>
          match skipWs s1 with
          | ',' :: s2 => pArrLoop fuel s2 (acc ++ [v])
          | ']' :: s2 => .ok (.arr (acc ++ [v]), s2)
          | _ => .error "expected comma or close bracket"

/-- Parse the inside of a JSON object after the opening brace. -/
def pObj : Nat → List Char → Except String (Json × List Char)
  | 0, _ => .error "out of fuel"
  | fuel + 1, s =>
      match skipWs s with
      | '\x7d' :: r => .ok (.obj [], r)
      | _ => pObjLoop fuel s []

/-- Parse object members separated by commas, up to the closing brace. -/
def pObjLoop : Nat → List Char → List (String × Json) → Except String (Json × List Char)
  | 0, _, _ => .error "out of fuel"
  | fuel + 1, s, acc =>
      match skipWs s with
      | '"' :: r =>
          match pStrChars r with
          | .error e => .error e
          | .ok (kcs, s1) =>
              match skipWs s1 with
              | ':' :: s2 =>
                  match pVal fuel s2 with
                  | .error e => .error e
                  | .ok (v, s3) =>
                      let acc' := insertKV acc (String.mk kcs) v
                      match skipWs s3 with
                      | ',' :: s4 => pObjLoop fuel s4 acc'
                      | '\x7d' :: s4 => .ok (.obj acc', s4)
                      | _ => .error "expected comma or close brace"
              | _ => .error "expected colon"
      | _ => .error "expected property name"

end

/-- Model of Python's `json.loads`: parse one JSON value and require only
whitespace to follow (`Extra data` otherwise). -/
def loads (raw : String) : Except String Json :=
  let s := raw.toList
  match pVal (4 * s.length + 16) s with
  | .error e => .error e
  | .ok (v, rest) =>
      if (skipWs rest).isEmpty then .ok v else .error "Extra data"

/-- True when an `Except` result is an error (a raised Python exception in
the model). -/
def exceptIsError : Except String α → Bool
  | .error _ => true
  | .ok _ => false

/-- Python whitespace as stripped by `str.strip()` (ASCII subset; the
inputs involved in the claims contain only ASCII whitespace). -/
def pySpace (c : Char) : Bool :=
  c = ' ' || c = '\t' || c = '\n' || c = '\r' || c = '\x0b' || c = '\x0c'

/-- Python `str.strip()` on a character list. -/
def pyStrip (s : List Char) : List Char :=
  ((s.dropWhile pySpace).reverse.dropWhile pySpace).reverse

/-- Inner scanning loop of `_extract_json_objects` (chat_server.py lines
319-346): starting just after the region opener, with the given stack of
open brackets, in-string flag and escape flag, return how many further
characters the loop consumes.  A matched closer is consumed; on a
mismatched closer the loop breaks without consuming it; end of input or
an emptied stack stops the scan. -/
def scanRegion : List Char → Bool → Bool → List Char → Nat
  | [], _, _, _ => 0
  | _ :: _, _, _, [] => 0
  | top :: stk, inStr, esc, c :: rest =>
      if inStr then
        if esc then scanRegion (top :: stk) inStr false rest + 1
        else if c = '\\' then scanRegion (top :: stk) inStr true rest + 1
        else if c = '"' then scanRegion (top :: stk) false esc rest + 1
        else scanRegion (top :: stk) inStr esc rest + 1
      else
        if c = '"' then scanRegion (top :: stk) true esc rest + 1
        else if c = '\x7b' ∨ c = '[' then scanRegion (c :: top :: stk) inStr esc rest + 1
        else if c = '\x7d' ∨ c = ']' then
          if (top = '\x7b' ∧ c = '\x7d') ∨ (top = '[' ∧ c = ']') then
            scanRegion stk inStr esc rest + 1
          else 0
        else scanRegion (top :: stk) inStr esc rest + 1

/-- Outer loop of `_extract_json_objects` (chat_server.py lines 307-350):
skip to the next `{`/`[`, scan one region with `scanRegion`, emit the
stripped span `text[start:end]` (the code's `end > start` guard always
holds since the opener itself is part of the span), and continue after
the scanned span.  `fuel` bounds the iteration count; every step consumes
at least one character, so `fuel = text.length` (see `extractAux`) makes
the bound inert. -/
def extractAuxF : Nat → List Char → List (List Char)
  | 0, _ => []
  | _, [] => []
  | fuel + 1, c :: rest =>
      if c = '\x7b' ∨ c = '[' then
        pyStrip (c :: rest.take (scanRegion [c] false false rest)) ::
          extractAuxF fuel (rest.drop (scanRegion [c] false false rest))
      else extractAuxF fuel rest

/-- The extractor's scan over a whole character list. -/
def extractAux (t : List Char) : List (List Char) :=
  extractAuxF t.length t

def _extract_json_objects (text : String) : List String :=
  (extractAux text.toList).map (fun cs => String.mk cs)

/-- Syntactic classes for the balanced-region grammar used to state claim
C1: a `region` is a `{...}` or `[...]` span, a `body` is a sequence of
`item`s, an `item` is a plain character, a quoted string literal, or a
nested region, and `str` is the body of a string literal. -/
inductive TokKind where
  | item : TokKind
  | region : TokKind
  | body : TokKind
  | strB : TokKind

/-- The balanced-region grammar (spec §4.1): every well-formed top-level
JSON `{...}`/`[...]` region is generated by `Gram .region`; string
literals may contain arbitrary characters, with backslash escapes, and
brackets inside strings carry no structure. -/
inductive Gram : TokKind → List Char → Prop where
  | plain (c : Char) :
      c ≠ '\x7b' → c ≠ '[' → c ≠ '\x7d' → c ≠ ']' → c ≠ '"' →
      Gram .item [c]
  | strLit (s : List Char) : Gram .strB s → Gram .item ('"' :: s ++ ['"'])
  | reg (r : List Char) : Gram .region r → Gram .item r
  | brace (b : List Char) : Gram .body b → Gram .region ('\x7b' :: b ++ ['\x7d'])
  | bracket (b : List Char) : Gram .body b → Gram .region ('[' :: b ++ [']'])
  | bodyNil : Gram .body []
  | bodyCons (i rest : List Char) :
      Gram .item i → Gram .body rest → Gram .body (i ++ rest)
  | strNil : Gram .strB []
  | strPlain (c : Char) (s : List Char) :
      c ≠ '"' → c ≠ '\\' → Gram .strB s → Gram .strB (c :: s)
  | strEsc (c : Char) (s : List Char) : Gram .strB s → Gram .strB ('\\' :: c :: s)

/-- Noise between regions: text containing no region opener. -/
def NoOpener (s : List Char) : Prop :=
  ∀ c ∈ s, c ≠ '\x7b' ∧ c ≠ '['

/-- A text made of N well-formed regions interspersed with noise, paired
with the list of those regions in left-to-right order (claim C1's input
shape). -/
inductive Interleaved : List Char → List (List Char) → Prop where
  | last (noise : List Char) : NoOpener noise → Interleaved noise []
  | cons (noise r rest : List Char) (regions : List (List Char)) :
      NoOpener noise → Gram .region r → Interleaved rest regions →
      Interleaved (noise ++ r ++ rest) (r :: regions)

/-- A normalized plan step as built by `_parse_tool_plan_text`: the dict
`\x7b"tool_name": ..., "arguments": ...\x7d`.  Both values are JSON values
(the code does not force the name to be a string). -/
structure StepD where
  toolName : Json
  arguments : Json

/-- The inner loop `for s in lst: name = s.get("tool_name") or
s.get("name"); if name: steps.append(...)` shared by all plan-list
schemas.  A non-dict element makes `s.get` raise `AttributeError`; the
returned flag records that the loop aborted there, keeping the steps
appended so far (Python list mutation). -/
def stepListEmit : List Json → List StepD → List StepD × Bool
  | [], steps => (steps, false)
  | .obj f :: rest, steps =>
      let name := pyOr (pyGet f "tool_name") (pyGet f "name")
      if truthy name then
        stepListEmit rest (steps ++ [⟨name, pyOr (pyGet f "arguments") (.obj [])⟩])
      else stepListEmit rest steps
  | _ :: _, steps => (steps, true)

/-- The assignment `reason = str(obj.get("reason", default))`. -/
def reasonUpd (fields : List (String × Json)) (default : String) : String :=
  match jget fields "reason" with
  | some v => pyStr v
  | none => default

/-- Fragment-branch alias-key loop (chat_server.py lines 375-384): every
key of `("tool_plan", "steps", "calls", "tools")` whose value is a list
contributes steps (there is no `break` in this branch), re-assigning
`reason` after each such key; an `AttributeError` from a non-dict element
abandons the rest of the fragment, keeping the state reached so far. -/
def aliasLoop : List String → List (String × Json) → List StepD → String → List StepD × String
  | [], _, steps, reason => (steps, reason)
  | key :: more, fields, steps, reason =>
      match jget fields key with
      | some (.arr xs) =>
          match stepListEmit xs steps with
          | (steps', true) => (steps', reason)
          | (steps', false) => aliasLoop more fields steps' (reasonUpd fields reason)
      | _ => aliasLoop more fields steps reason

/-- Processing of one successfully parsed fragment in the `except` branch
of `_parse_tool_plan_text` (lines 365-392): legacy single-tool check,
then the alias-key loop for dicts; the bare-list schema for lists;
anything else contributes nothing. -/
def processFragment (j : Json) (steps : List StepD) (reason : String) : List StepD × String :=
  match j with
  | .obj fields =>
      let p :=
        if hasKey fields "tool_name" || hasKey fields "use_tool" then
          (if truthy (pyGet fields "use_tool") && truthy (pyGet fields "tool_name") then
             steps ++ [⟨pyGet fields "tool_name", pyOr (pyGet fields "arguments") (.obj [])⟩]
           else steps,
           reasonUpd fields reason)
        else (steps, reason)
      aliasLoop ["tool_plan", "steps", "calls", "tools"] fields p.1 p.2
  | .arr xs => ((stepListEmit xs steps).1, reason)
  | _ => (steps, reason)

/-- One iteration of `for p in parts` (lines 362-394): parse the
fragment, process it; any exception is swallowed by `continue`, keeping
the state reached so far. -/
def processOne (p : String) (steps : List StepD) (reason : String) : List StepD × String :=
  match loads p with
  | .error _ => (steps, reason)
  | .ok j => processFragment j steps reason

/-- The whole fragment loop of the `except` branch. -/
def parseFragments : List String → List StepD → String → List StepD × String
  | [], steps, reason => (steps, reason)
  | p :: rest, steps, reason =>
      let st := processOne p steps reason
      parseFragments rest st.1 st.2

/-- Direct-branch alias-key loop (lines 417-427): only the keys
`("steps", "calls", "tools")`, with a `break` after the first key bound
to a list; a non-dict element raises out of `_parse_tool_plan_text`. -/
def aliasDirect : List String → List (String × Json) → Except String (List StepD × String)
  | [], _ => .ok ([], "")
  | key :: more, fields =>
      match jget fields key with
      | some (.arr xs) =>
          match stepListEmit xs [] with
          | (_, true) => .error "AttributeError"
          | (steps, false) => .ok (steps, reasonUpd fields "")
      | _ => aliasDirect more fields

/-- The `else` branch of `_parse_tool_plan_text` (lines 396-433), taken
when `json.loads` succeeds on the whole text: multi-tool `tool_plan`
schema first, then the legacy `use_tool` schema, then the alias keys;
bare lists use the step-list loop directly.  `AttributeError` from a
non-dict list element propagates to the caller. -/
def normalizeDirect : Json → Except String (List StepD × String)
  | .obj fields =>
      (match jget fields "tool_plan" with
       | some (.arr xs) =>
           match stepListEmit xs [] with
           | (_, true) => .error "AttributeError"
           | (steps, false) => .ok (steps, reasonUpd fields "")
       | _ =>
           if hasKey fields "use_tool" then
             .ok ((if truthy (pyGet fields "use_tool") && truthy (pyGet fields "tool_name") then
                     [⟨pyGet fields "tool_name", pyOr (pyGet fields "arguments") (.obj [])⟩]
                   else []),
                  reasonUpd fields "")
           else aliasDirect ["steps", "calls", "tools"] fields)
  | .arr xs =>
      (match stepListEmit xs [] with
       | (_, true) => .error "AttributeError"
       | (steps, false) => .ok (steps, ""))
  | _ => .ok ([], "")

/-- Translation of `_parse_tool_plan_text` (chat_server.py lines
353-433): try `json.loads` on the whole text; on failure, extract
fragments and fold them through the fragment loop (which never raises);
on success, normalize the parsed value directly (which can raise, see
claim C3). -/
def _parse_tool_plan_text (cleaned_raw : String) : Except String (List StepD × String) :=
  match loads cleaned_raw with
  | .error _ => .ok (parseFragments (_extract_json_objects cleaned_raw) [] "")
  | .ok data => normalizeDirect data

/-- Translation of `_clean_json_like` (lines 296-304): strip, remove a
leading ```json or ``` fence and a trailing ``` fence, strip again. -/
def _clean_json_like (raw : String) : String :=
  let c1 := pyStrip raw.toList
  let c2 := if "```json".toList.isPrefixOf c1 then c1.drop 7 else c1
  let c3 := if "```".toList.isPrefixOf c2 then c2.drop 3 else c2
  let c4 := if "```".toList.isSuffixOf c3 then c3.take (c3.length - 3) else c3
  String.mk (pyStrip c4)

/-- Is this option a JSON list?  (`isinstance(obj.get(key), list)`). -/
def isListVal : Option Json → Bool
  | some (.arr _) => true
  | _ => false

/-- A parsed fragment value bears a recognizable schema when the
normalizer could react to it at all: a dict carrying `tool_name`,
`use_tool`, or one of the four alias keys bound to a list; or a bare
list (the list-of-steps schema). -/
def recognizableB : Json → Bool
  | .obj fields =>
      hasKey fields "tool_name" || hasKey fields "use_tool" ||
      isListVal (jget fields "tool_plan") || isListVal (jget fields "steps") ||
      isListVal (jget fields "calls") || isListVal (jget fields "tools")
  | .arr _ => true
  | _ => false

/-- A fragment contributes nothing when it fails to parse or parses to a
value with no recognizable schema. -/
def fragUnrecognizable (p : String) : Bool :=
  match loads p with
  | .error _ => true
  | .ok j => !recognizableB j

/-- Every element of the list is a JSON object. -/
def allObjs (xs : List Json) : Bool :=
  xs.all (fun x => match x with | .obj _ => true | _ => false)

/-- First alias key bound to a list, if any (the one the direct branch's
`break` selects). -/
def firstAliasList : List String → List (String × Json) → Option (List Json)
  | [], _ => none
  | k :: more, fields =>
      match jget fields k with
      | some (.arr xs) => some xs
      | _ => firstAliasList more fields

/-- Shape condition under which the direct branch of
`_parse_tool_plan_text` cannot raise: whichever plan list it iterates
contains only objects. -/
def goodShape : Json → Bool
  | .obj fields =>
      (match jget fields "tool_plan" with
       | some (.arr xs) => allObjs xs
       | _ =>
           if hasKey fields "use_tool" then true
           else
             match firstAliasList ["steps", "calls", "tools"] fields with
             | some xs => allObjs xs
             | none => true)
  | .arr xs => allObjs xs
  | _ => true

/-- Model of the pydantic `ToolCall` record appended to `tool_calls`
during an attempt: name, arguments, and the tool result (`none` when the
tool call raised). -/
structure ToolCallR where
  name : Json
  arguments : Json
  result : Option String

/-- Model of the inbound `ChatRequest`. -/
structure ChatRequest where
  message : String
  chat_type : String

/-- Model of the outbound `ChatResponse`; `retries` is the insertion-
ordered dict of per-provider attempt counts. -/
structure ChatResponse where
  ok : Bool
  model : Option String
  chat_type : String
  answer : Option String
  tool_calls : List ToolCallR
  retries : List (String × Nat)
  error : Option String

/-- Oracle for the effectful collaborators of one chat request; each
field gives the outcome of one network call, keyed by provider name and
attempt number (and step position for tool calls).  `.error` models a
raised exception.  The request message is fixed by the enclosing request,
so the oracle closes over it. -/
structure Behavior where
  getLlm : String → Nat → Except String Unit
  listTools : String → Nat → Except String Unit
  planText : String → Nat → Except String String
  toolCall : String → Nat → Nat → Json → Json → Except String String
  answerText : String → Nat → List ToolCallR → Except String String

/-- The step-execution loop of `chat` (lines 510-523): execute planned
steps in order (`enumerate` from 1), skipping unnamed steps; on the first
step whose tool call raises, record it with `result = none` and stop. -/
def execSteps (tool : Nat → Json → Json → Except String String) :
    Nat → List StepD → List ToolCallR
  | _, [] => []
  | idx, st :: more =>
      let name := pyOr st.toolName .null
      let args := pyOr st.arguments (.obj [])
      if truthy name then
        match tool idx name args with
        | .ok res => ⟨name, args, some res⟩ :: execSteps tool (idx + 1) more
        | .error _ => [⟨name, args, none⟩]
      else execSteps tool (idx + 1) more

/-- The body of one attempt of the `try` block of `chat` (lines 502-539):
construct the provider client, list tools, obtain the raw plan text,
clean and parse it, execute the steps, synthesize the final answer.
`.error` is any exception reaching the attempt boundary; `.ok none` is an
empty final answer (retry); `.ok (some _)` is success. -/
def runAttempt (b : Behavior) (p : String) (k : Nat) :
    Except String (Option (String × List ToolCallR)) :=
  match b.getLlm p k with
  | .error e => .error e
  | .ok _ =>
  match b.listTools p k with
  | .error e => .error e
  | .ok _ =>
  match b.planText p k with
  | .error e => .error e
  | .ok raw =>
  match _parse_tool_plan_text (_clean_json_like raw) with
  | .error e => .error e
  | .ok sr =>
      let tool_calls := execSteps (b.toolCall p k) 1 sr.1
      match b.answerText p k tool_calls with
      | .error e => .error e
      | .ok answer =>
          if answer = "" then .ok none else .ok (some (answer, tool_calls))

/-- Success projection of an attempt: both a raised exception and an
empty answer are caught at the attempt boundary and mean "retry". -/
def attemptSucc : Except String (Option α) → Option α
  | .ok (some s) => some s
  | _ => none

/-- Python dict assignment `retries[p] = v`: replace in place, else
append. -/
def updateR : List (String × Nat) → String → Nat → List (String × Nat)
  | [], p, v => [(p, v)]
  | (k, w) :: r, p, v =>
      if k = p then (k, v) :: r else (k, w) :: updateR r p v

/-- Dict lookup on the retries mapping. -/
def lookupR : List (String × Nat) → String → Option Nat
  | [], _ => none
  | (k, v) :: r, q => if k = q then some v else lookupR r q

/-- The per-provider retry loop `while attempt < 3` (lines 497-543):
`rem` is the loop bound `3 - attempt`, kept explicit so the recursion is
structural; each iteration increments `attempt`, writes
`retries[provider] = attempt`, and runs one attempt. -/
def attemptGo (b : Behavior) (p : String) :
    Nat → Nat → List (String × Nat) → List (String × Nat) × Option (String × List ToolCallR)
  | 0, _, r => (r, none)
  | rem + 1, attempt, r =>
      let a := attempt + 1
      let r' := updateR r p a
      match attemptSucc (runAttempt b p a) with
      | some s => (r', some s)
      | none => attemptGo b p rem a r'

/-- The retry loop entered with `attempt = 0` and bound 3. -/
def attemptLoop (b : Behavior) (p : String) (r : List (String × Nat)) :
    List (String × Nat) × Option (String × List ToolCallR) :=
  attemptGo b p 3 0 r

/-- The `for provider in route` loop of `chat` (lines 496-556): a
successful attempt returns the success response immediately; an
exhausted provider advances to the next; an exhausted route returns the
all-failed response. -/
def chatGo (b : Behavior) (ct : String) :
    List String → List (String × Nat) → ChatResponse
  | [], r =>
      ⟨false, none, ct, none, [], r, some "All providers failed after 3 retries each"⟩
  | p :: rest, r =>
      match attemptLoop b p r with
      | (r', some s) => ⟨true, some p, ct, some s.1, s.2, r', none⟩
      | (r', none) => chatGo b ct rest r'

/-- Route selection of `chat` (lines 486-493):
`(req.chat_type or "").strip().lower()` and the three-way branch. -/
def selectRoute (chat_type : String) : List String :=
  let requested := String.mk ((pyStrip chat_type.toList).map Char.toLower)
  if requested = "gemini" then ["gemini", "groq", "ollama"]
  else if requested = "groq" then ["groq", "ollama"]
  else ["ollama"]

/-- The `chat` endpoint (lines 481-556): initialize the retries dict to
zero for all three known providers, select the route, and run it. -/
def chat (b : Behavior) (req : ChatRequest) : ChatResponse :=
  let retries : List (String × Nat) := [("gemini", 0), ("groq", 0), ("ollama", 0)]
  let route := selectRoute req.chat_type
  chatGo b req.chat_type route retries

/-- A behavior whose provider-client construction always raises (e.g. a
missing credential): every attempt of every provider fails. -/
def bAllFail : Behavior :=
  ⟨fun _ _ => .error "ConfigurationError", fun _ _ => .ok (), fun _ _ => .ok "",
   fun _ _ _ _ _ => .error "unreachable", fun _ _ _ => .ok ""⟩

/-- The planner reply of the C10 example: a well-formed no-tool plan. -/
def helloPlanText : String :=
  "\x7b\"use_tools\": false, \"tool_plan\": [], \"reason\": \"greeting\"\x7d"

/-- Behavior of the C10 example: healthy provider, empty tool catalog,
planner answers `helloPlanText`, final answer is `ans`. -/
def c10Behavior (ans : String) : Behavior :=
  ⟨fun _ _ => .ok (), fun _ _ => .ok (), fun _ _ => .ok helloPlanText,
   fun _ _ _ _ _ => .error "no tools", fun _ _ _ => .ok ans⟩

/-- Characters with no structural meaning to the region scanner outside
strings: not an opener, not a closer, not a quote. -/
def NoSpecialC (c : Char) : Prop :=
  c ≠ '\x7b' ∧ c ≠ '[' ∧ c ≠ '\x7d' ∧ c ≠ ']' ∧ c ≠ '"'

/-- Induction motive for the scanner/grammar correspondence: a generated
span is consumed as a whole, returning the scanner to the state it
started in (`strB` spans are scanned in-string, the others outside). -/
def scanSpec : TokKind → List Char → Prop
  | .strB, s => ∀ (top : Char) (stk rest : List Char),
      scanRegion (top :: stk) true false (s ++ rest) =
        s.length + scanRegion (top :: stk) true false rest
  | _, s => ∀ (top : Char) (stk rest : List Char),
      scanRegion (top :: stk) false false (s ++ rest) =
        s.length + scanRegion (top :: stk) false false rest

theorem extractAuxF_nil (f : Nat) : extractAuxF f [] = [] := by
  cases f <;> rfl

theorem extractAuxF_fuel :
    ∀ (n f1 f2 : Nat) (t : List Char), t.length ≤ n → t.length ≤ f1 → t.length ≤ f2 →
      extractAuxF f1 t = extractAuxF f2 t := by
  intro n
  induction n with
  | zero =>
      intro f1 f2 t ht _ _
      have h0 : t = [] := List.length_eq_zero.mp (Nat.le_zero.mp ht)
      subst h0
      rw [extractAuxF_nil, extractAuxF_nil]
  | succ n IH =>
      intro f1 f2 t ht h1 h2
      cases t with
      | nil => rw [extractAuxF_nil, extractAuxF_nil]
      | cons c rest =>
          cases f1 with
          | zero => simp at h1
          | succ f1' =>
            cases f2 with
            | zero => simp at h2
            | succ f2' =>
              simp only [List.length_cons, Nat.succ_le_succ_iff] at ht h1 h2
              simp only [extractAuxF]
              by_cases hc : c = '\x7b' ∨ c = '['
              · simp only [if_pos hc]
                have hd : (rest.drop (scanRegion [c] false false rest)).length ≤ rest.length := by
                  simp [List.length_drop]
                exact congrArg _ (IH f1' f2' _ (le_trans hd ht) (le_trans hd h1) (le_trans hd h2))
              · simp only [if_neg hc]
                exact IH f1' f2' rest ht h1 h2

theorem extractAux_opener (c : Char) (rest : List Char) (h : c = '\x7b' ∨ c = '[') :
    extractAux (c :: rest) =
      pyStrip (c :: rest.take (scanRegion [c] false false rest)) ::
        extractAux (rest.drop (scanRegion [c] false false rest)) := by
  unfold extractAux
  simp only [List.length_cons]
  rw [show extractAuxF (rest.length + 1) (c :: rest) =
        pyStrip (c :: rest.take (scanRegion [c] false false rest)) ::
          extractAuxF rest.length (rest.drop (scanRegion [c] false false rest)) by
    simp only [extractAuxF, if_pos h]]
  have hd : (rest.drop (scanRegion [c] false false rest)).length ≤ rest.length := by
    simp [List.length_drop]
  exact congrArg _ (extractAuxF_fuel rest.length rest.length _ _ hd hd le_rfl)

theorem extractAux_skip (c : Char) (rest : List Char) (h : ¬(c = '\x7b' ∨ c = '[')) :
    extractAux (c :: rest) = extractAux rest := by
  unfold extractAux
  simp only [List.length_cons]
  rw [show extractAuxF (rest.length + 1) (c :: rest) = extractAuxF rest.length rest by
    simp only [extractAuxF, if_neg h]]

theorem extractAux_noise :
    ∀ (noise t : List Char), NoOpener noise → extractAux (noise ++ t) = extractAux t := by
  intro noise
  induction noise with
  | nil => intro t _; rfl
  | cons c rest IH =>
      intro t hn
      have hc := hn c (by simp)
      rw [List.cons_append, extractAux_skip c (rest ++ t) (by simp [hc.1, hc.2])]
      exact IH t (fun d hd => hn d (by simp [hd]))

/-- C8 (confirmed): route selection is the pure three-way branch of
`chat` on the stripped, lowercased `chat_type`: `"gemini"` routes through
all three providers, `"groq"` falls back to ollama only, and `"ollama"`
or any unrecognized value (such as `"xyz"`) routes to ollama alone with
no fallback. -/
theorem c8_route_selection :
    selectRoute "gemini" = ["gemini", "groq", "ollama"] ∧
    selectRoute "groq" = ["groq", "ollama"] ∧
    selectRoute "ollama" = ["ollama"] ∧
    selectRoute "xyz" = ["ollama"] :=
  ⟨rfl, rfl, rfl, rfl⟩

theorem scan_empty_stack (i e : Bool) (t : List Char) : scanRegion [] i e t = 0 := by
  cases t <;> rfl

theorem scan_nil (top : Char) (stk : List Char) (i e : Bool) :
    scanRegion (top :: stk) i e [] = 0 := rfl

theorem scan_plain (top : Char) (stk : List Char) (c : Char) (rest : List Char)
    (h1 : c ≠ '"') (h2 : ¬(c = '\x7b' ∨ c = '[')) (h3 : ¬(c = '\x7d' ∨ c = ']')) :
    scanRegion (top :: stk) false false (c :: rest) =
      scanRegion (top :: stk) false false rest + 1 := by
  simp [scanRegion, h1, h2, h3]

theorem scan_quote_open (top : Char) (stk : List Char) (rest : List Char) :
    scanRegion (top :: stk) false false ('"' :: rest) =
      scanRegion (top :: stk) true false rest + 1 := by
  simp [scanRegion]

theorem scan_open (top : Char) (stk : List Char) (c : Char) (rest : List Char)
    (h : c = '\x7b' ∨ c = '[') :
    scanRegion (top :: stk) false false (c :: rest) =
      scanRegion (c :: top :: stk) false false rest + 1 := by
  have hq : c ≠ '"' := by rcases h with h | h <;> subst h <;> decide
  simp [scanRegion, hq, h]

theorem scan_close_match (top : Char) (stk : List Char) (c : Char) (rest : List Char)
    (h : (top = '\x7b' ∧ c = '\x7d') ∨ (top = '[' ∧ c = ']')) :
    scanRegion (top :: stk) false false (c :: rest) =
      scanRegion stk false false rest + 1 := by
  rcases h with ⟨h1, h2⟩ | ⟨h1, h2⟩ <;> subst h1 <;> subst h2 <;> simp [scanRegion]

theorem scan_close_mismatch (top : Char) (stk : List Char) (c : Char) (rest : List Char)
    (hc : c = '\x7d' ∨ c = ']')
    (h : ¬((top = '\x7b' ∧ c = '\x7d') ∨ (top = '[' ∧ c = ']'))) :
    scanRegion (top :: stk) false false (c :: rest) = 0 := by
  have hq : c ≠ '"' := by rcases hc with hc | hc <;> subst hc <;> decide
  have ho : ¬(c = '\x7b' ∨ c = '[') := by rcases hc with hc | hc <;> subst hc <;> decide
  simp [scanRegion, hq, ho, hc, h]

theorem scan_str_plain (top : Char) (stk : List Char) (c : Char) (rest : List Char)
    (h1 : c ≠ '"') (h2 : c ≠ '\\') :
    scanRegion (top :: stk) true false (c :: rest) =
      scanRegion (top :: stk) true false rest + 1 := by
  simp [scanRegion, h1, h2]

theorem scan_str_close (top : Char) (stk : List Char) (rest : List Char) :
    scanRegion (top :: stk) true false ('"' :: rest) =
      scanRegion (top :: stk) false false rest + 1 := by
  simp [scanRegion]

theorem scan_str_esc (top : Char) (stk : List Char) (c : Char) (rest : List Char) :
    scanRegion (top :: stk) true false ('\\' :: c :: rest) =
      scanRegion (top :: stk) true false rest + 2 := by
  simp [scanRegion]

theorem gram_scan : ∀ (k : TokKind) (s : List Char), Gram k s → scanSpec k s := by
  intro k s h
  induction h with
  | plain c h1 h2 h3 h4 h5 =>
      intro top stk rest
      rw [List.singleton_append,
          scan_plain top stk c rest h5 (by simp [h1, h2]) (by simp [h3, h4])]
      simp
      omega
  | strLit s hs IH =>
      intro top stk rest
      rw [show ('"' :: s ++ ['"']) ++ rest = '"' :: (s ++ ('"' :: rest)) by simp,
          scan_quote_open, IH top stk ('"' :: rest), scan_str_close]
      simp
      omega
  | reg r hr IH => exact IH
  | brace b hb IH =>
      intro top stk rest
      rw [show ('\x7b' :: b ++ ['\x7d']) ++ rest = '\x7b' :: (b ++ ('\x7d' :: rest)) by simp,
          scan_open top stk '\x7b' _ (Or.inl rfl), IH '\x7b' (top :: stk) ('\x7d' :: rest),
          scan_close_match '\x7b' (top :: stk) '\x7d' rest (Or.inl ⟨rfl, rfl⟩)]
      simp
      omega
  | bracket b hb IH =>
      intro top stk rest
      rw [show ('[' :: b ++ [']']) ++ rest = '[' :: (b ++ (']' :: rest)) by simp,
          scan_open top stk '[' _ (Or.inr rfl), IH '[' (top :: stk) (']' :: rest),
          scan_close_match '[' (top :: stk) ']' rest (Or.inr ⟨rfl, rfl⟩)]
      simp
      omega
  | bodyNil =>
      intro top stk rest
      simp
  | bodyCons i rest' hi hb IHi IHb =>
      intro top stk rest
      rw [List.append_assoc, IHi top stk (rest' ++ rest), IHb top stk rest]
      simp
      omega
  | strNil =>
      intro top stk rest
      simp
  | strPlain c s h1 h2 hs IH =>
      intro top stk rest
      rw [List.cons_append, scan_str_plain top stk c _ h1 h2, IH top stk rest]
      simp
      omega
  | strEsc c s hs IH =>
      intro top stk rest
      rw [show ('\\' :: c :: s) ++ rest = '\\' :: c :: (s ++ rest) by simp,
          scan_str_esc, IH top stk rest]
      simp
      omega

theorem region_cases {r : List Char} (h : Gram .region r) :
    ∃ b, Gram .body b ∧ (r = '\x7b' :: b ++ ['\x7d'] ∨ r = '[' :: b ++ [']']) := by
  cases h with
  | brace b hb => exact ⟨b, hb, Or.inl rfl⟩
  | bracket b hb => exact ⟨b, hb, Or.inr rfl⟩

theorem pyStrip_sandwich (c d : Char) (m : List Char)
    (hc : pySpace c = false) (hd : pySpace d = false) :
    pyStrip (c :: (m ++ [d])) = c :: (m ++ [d]) := by
  unfold pyStrip
  rw [List.dropWhile_cons]
  simp only [hc, Bool.false_eq_true, if_false]
  have e2 : (c :: (m ++ [d])).reverse = d :: (m.reverse ++ [c]) := by simp
  rw [e2, List.dropWhile_cons]
  simp only [hd, Bool.false_eq_true, if_false]
  simp

theorem extract_region (r : List Char) (h : Gram .region r) (t : List Char) :
    extractAux (r ++ t) = r :: extractAux t := by
  obtain ⟨b, hb, hr | hr⟩ := region_cases h <;> subst hr
  · rw [show ('\x7b' :: b ++ ['\x7d']) ++ t = '\x7b' :: (b ++ ('\x7d' :: t)) by simp,
        extractAux_opener '\x7b' _ (Or.inl rfl)]
    have hk : scanRegion ['\x7b'] false false (b ++ ('\x7d' :: t)) = b.length + 1 := by
      rw [gram_scan _ _ hb '\x7b' [] ('\x7d' :: t),
          scan_close_match '\x7b' [] '\x7d' t (Or.inl ⟨rfl, rfl⟩), scan_empty_stack]
    have e2 : b ++ ('\x7d' :: t) = (b ++ ['\x7d']) ++ t := by simp
    have hlen : b.length + 1 = (b ++ ['\x7d']).length := by simp
    have htake : (b ++ ('\x7d' :: t)).take (b.length + 1) = b ++ ['\x7d'] := by
      rw [e2, hlen, List.take_left]
    have hdrop : (b ++ ('\x7d' :: t)).drop (b.length + 1) = t := by
      rw [e2, hlen, List.drop_left]
    rw [hk, htake, hdrop, pyStrip_sandwich '\x7b' '\x7d' b (by decide) (by decide)]
    simp
  · rw [show ('[' :: b ++ [']']) ++ t = '[' :: (b ++ (']' :: t)) by simp,
        extractAux_opener '[' _ (Or.inr rfl)]
    have hk : scanRegion ['['] false false (b ++ (']' :: t)) = b.length + 1 := by
      rw [gram_scan _ _ hb '[' [] (']' :: t),
          scan_close_match '[' [] ']' t (Or.inr ⟨rfl, rfl⟩), scan_empty_stack]
    have e2 : b ++ (']' :: t) = (b ++ [']']) ++ t := by simp
    have hlen : b.length + 1 = (b ++ [']']).length := by simp
    have htake : (b ++ (']' :: t)).take (b.length + 1) = b ++ [']'] := by
      rw [e2, hlen, List.take_left]
    have hdrop : (b ++ (']' :: t)).drop (b.length + 1) = t := by
      rw [e2, hlen, List.drop_left]
    rw [hk, htake, hdrop, pyStrip_sandwich '[' ']' b (by decide) (by decide)]
    simp

/-- C1 (confirmed): on any text made of well-formed, non-overlapping
top-level `\x7b...\x7d`/`[...]` regions interspersed with opener-free
noise, `_extract_json_objects` returns exactly those region substrings,
byte for byte, in left-to-right order.  The `Gram` grammar admits every
well-formed JSON region, including ones whose string literals contain
escaped quotes and embedded closing braces (see the witness, which is the
spec's own example). -/
theorem c1_extract_wellformed_regions (text : String) (regions : List (List Char))
    (h : Interleaved text.toList regions) :
    _extract_json_objects text = regions.map (fun cs => String.mk cs) := by
  suffices haux : ∀ (t : List Char) (rs : List (List Char)), Interleaved t rs →
      extractAux t = rs by
    unfold _extract_json_objects
    rw [haux _ _ h]
  intro t rs hi
  induction hi with
  | last noise hn =>
      have hx := extractAux_noise noise [] hn
      simpa using hx
  | cons noise r rest regions hn hr hrest IH =>
      rw [List.append_assoc, extractAux_noise noise _ hn, extract_region r hr rest, IH]

theorem gram_str_of_plain :
    ∀ (s : List Char), (∀ c ∈ s, c ≠ '"' ∧ c ≠ '\\') → Gram .strB s := by
  intro s
  induction s with
  | nil => intro _; exact Gram.strNil
  | cons c m IH =>
      intro h
      have hc := h c (by simp)
      exact Gram.strPlain c m hc.1 hc.2 (IH (fun d hd => h d (by simp [hd])))

theorem gram_body_of_plain :
    ∀ (s : List Char), (∀ c ∈ s, NoSpecialC c) → Gram .body s := by
  intro s
  induction s with
  | nil => intro _; exact Gram.bodyNil
  | cons c m IH =>
      intro h
      obtain ⟨h1, h2, h3, h4, h5⟩ := h c (by simp)
      have hx : Gram .body ([c] ++ m) :=
        Gram.bodyCons [c] m (Gram.plain c h1 h2 h3 h4 h5)
          (IH (fun d hd => h d (by simp [hd])))
      simpa using hx

theorem c1_extract_wellformed_regions_witness :
    Interleaved ("\x7b\"a\": \"x\\\"\x7dy\"\x7d".toList)
      ["\x7b\"a\": \"x\\\"\x7dy\"\x7d".toList] ∧
    _extract_json_objects "\x7b\"a\": \"x\\\"\x7dy\"\x7d" =
      ["\x7b\"a\": \"x\\\"\x7dy\"\x7d"] := by
  have hs : Gram .strB ['x', '\\', '"', '\x7d', 'y'] :=
    Gram.strPlain 'x' _ (by decide) (by decide)
      (Gram.strEsc '"' _
        (Gram.strPlain '\x7d' _ (by decide) (by decide)
          (Gram.strPlain 'y' _ (by decide) (by decide) Gram.strNil)))
  have ha : Gram .strB ['a'] := gram_str_of_plain ['a'] (by decide)
  have hbody : Gram .body ("\"a\": \"x\\\"\x7dy\"".toList) :=
    Gram.bodyCons _ _ (Gram.strLit ['a'] ha)
      (Gram.bodyCons [':'] _
        (Gram.plain ':' (by decide) (by decide) (by decide) (by decide) (by decide))
        (Gram.bodyCons [' '] _
          (Gram.plain ' ' (by decide) (by decide) (by decide) (by decide) (by decide))
          (Gram.bodyCons _ [] (Gram.strLit ['x', '\\', '"', '\x7d', 'y'] hs)
            Gram.bodyNil)))
  have hr : Gram .region ("\x7b\"a\": \"x\\\"\x7dy\"\x7d".toList) := Gram.brace _ hbody
  have hi : Interleaved ("\x7b\"a\": \"x\\\"\x7dy\"\x7d".toList)
      ["\x7b\"a\": \"x\\\"\x7dy\"\x7d".toList] :=
    Interleaved.cons [] _ [] [] (by simp [NoOpener]) hr
      (Interleaved.last [] (by simp [NoOpener]))
  exact ⟨hi, (c1_extract_wellformed_regions _ _ hi).trans rfl⟩

/-- C2 counterexample: the claim says a lone malformed region yields the
empty sequence, but the code emits the scanned prefix: an unterminated
opener is emitted as a fragment, and a region closed by a mismatched
closer is emitted as the prefix before that closer. -/
theorem c2_counterexample :
    _extract_json_objects "\x7b" = ["\x7b"] ∧
    _extract_json_objects "a\x7b]b" = ["\x7b"] ∧
    (["\x7b"] : List String) ≠ [] :=
  ⟨rfl, rfl, by decide⟩

/-- C2 (corrected): the extractor is total (never raises, by
construction of `extractAux`), but a malformed region is not dropped: an
opener followed by structurally inert characters and no closer emits the
whole stripped span as one fragment, and a mismatched closer emits the
stripped prefix before the closer while scanning continues after it, so
later fragments remain extractable. -/
theorem c2_malformed_region_emits_prefix :
    (∀ s : List Char, (∀ c ∈ s, NoSpecialC c) →
        extractAux ('\x7b' :: s) = [pyStrip ('\x7b' :: s)]) ∧
    (∀ s t : List Char, (∀ c ∈ s, NoSpecialC c) →
        extractAux ('\x7b' :: (s ++ ']' :: t)) = pyStrip ('\x7b' :: s) :: extractAux t) := by
  constructor
  · intro s h
    rw [extractAux_opener '\x7b' s (Or.inl rfl)]
    have hk : scanRegion ['\x7b'] false false s = s.length := by
      have hx := gram_scan _ _ (gram_body_of_plain s h) '\x7b' [] []
      simpa using hx
    rw [hk, List.take_length, List.drop_length]
    rfl
  · intro s t h
    rw [extractAux_opener '\x7b' _ (Or.inl rfl)]
    have hk : scanRegion ['\x7b'] false false (s ++ ']' :: t) = s.length := by
      rw [gram_scan _ _ (gram_body_of_plain s h) '\x7b' [] (']' :: t),
          scan_close_mismatch '\x7b' [] ']' t (Or.inr rfl) (by decide)]
      omega
    have htake : (s ++ ']' :: t).take s.length = s := List.take_left s (']' :: t)
    have hdrop : (s ++ ']' :: t).drop s.length = ']' :: t := List.drop_left s (']' :: t)
    rw [hk, htake, hdrop, extractAux_skip ']' t (by decide)]

theorem c2_malformed_region_emits_prefix_witness :
    (∀ c ∈ ['a', 'b', 'c'], NoSpecialC c) ∧
    extractAux ('\x7b' :: ['a', 'b', 'c']) = [pyStrip ('\x7b' :: ['a', 'b', 'c'])] ∧
    extractAux ('\x7b' :: (['a', 'b', 'c'] ++ ']' :: ['\x7b', '\x7d'])) =
      pyStrip ('\x7b' :: ['a', 'b', 'c']) :: extractAux ['\x7b', '\x7d'] := by
  have h : ∀ c ∈ ['a', 'b', 'c'], NoSpecialC c := by
    intro c hc
    simp at hc
    rcases hc with rfl | rfl | rfl <;>
      exact ⟨by decide, by decide, by decide, by decide, by decide⟩
  exact ⟨h, c2_malformed_region_emits_prefix.1 ['a', 'b', 'c'] h,
         c2_malformed_region_emits_prefix.2 ['a', 'b', 'c'] ['\x7b', '\x7d'] h⟩

/-- C7 (confirmed): planned steps execute in plan order and halt at the
first step whose tool call raises.  First conjunct: in the `tool_calls`
produced by one attempt, an entry with `result = none` is always the last
entry.  Second conjunct: a 3-step plan whose second step raises yields
exactly two entries, the second with `result = none` and no third
entry. -/
theorem c7_halt_on_first_failure :
    (∀ (tool : Nat → Json → Json → Except String String) (idx : Nat) (steps : List StepD)
        (pre : List ToolCallR) (tc : ToolCallR) (post : List ToolCallR),
        execSteps tool idx steps = pre ++ tc :: post → tc.result = none → post = []) ∧
    (∀ (tool : Nat → Json → Json → Except String String) (s1 s2 s3 : StepD) (r1 e : String),
        truthy s1.toolName = true → truthy s1.arguments = true →
        truthy s2.toolName = true → truthy s2.arguments = true →
        tool 1 s1.toolName s1.arguments = .ok r1 →
        tool 2 s2.toolName s2.arguments = .error e →
        execSteps tool 1 [s1, s2, s3] =
          [⟨s1.toolName, s1.arguments, some r1⟩, ⟨s2.toolName, s2.arguments, none⟩]) := by
  constructor
  · intro tool idx steps
    induction steps generalizing idx with
    | nil =>
        intro pre tc post heq _
        simp [execSteps] at heq
    | cons st more IH =>
        intro pre tc post heq hres
        simp only [execSteps] at heq
        by_cases hname : truthy (pyOr st.toolName Json.null) = true
        · rw [if_pos hname] at heq
          cases htool : tool idx (pyOr st.toolName Json.null) (pyOr st.arguments (Json.obj [])) with
          | ok res =>
              rw [htool] at heq
              cases pre with
              | nil =>
                  simp at heq
                  rw [← heq.1] at hres
                  simp at hres
              | cons p pre' =>
                  simp at heq
                  exact IH (idx + 1) pre' tc post heq.2 hres
          | error err =>
              rw [htool] at heq
              cases pre with
              | nil =>
                  simp at heq
                  exact heq.2
              | cons p pre' =>
                  simp at heq
        · rw [if_neg hname] at heq
          exact IH (idx + 1) pre tc post heq hres
  · intro tool s1 s2 s3 r1 e h1 h2 h3 h4 h5 h6
    simp [execSteps, pyOr, h1, h2, h3, h4, h5, h6]

theorem c7_halt_on_first_failure_witness :
    truthy (Json.str "f1") = true ∧
    execSteps (fun i _ _ => if i = 2 then .error "boom" else .ok "out") 1
        [⟨Json.str "f1", Json.obj [("k", Json.num 1)]⟩,
         ⟨Json.str "f2", Json.obj [("k", Json.num 2)]⟩,
         ⟨Json.str "f3", Json.obj [("k", Json.num 3)]⟩] =
      [⟨Json.str "f1", Json.obj [("k", Json.num 1)], some "out"⟩,
       ⟨Json.str "f2", Json.obj [("k", Json.num 2)], none⟩] ∧
    ([] : List ToolCallR) = [] := by
  refine ⟨by decide, ?_, ?_⟩
  · exact c7_halt_on_first_failure.2 (fun i _ _ => if i = 2 then .error "boom" else .ok "out")
      ⟨Json.str "f1", Json.obj [("k", Json.num 1)]⟩
      ⟨Json.str "f2", Json.obj [("k", Json.num 2)]⟩
      ⟨Json.str "f3", Json.obj [("k", Json.num 3)]⟩
      "out" "boom" (by decide) (by decide) (by decide) (by decide) rfl rfl
  · exact c7_halt_on_first_failure.1 (fun i _ _ => if i = 2 then .error "boom" else .ok "out")
      1
      [⟨Json.str "f1", Json.obj [("k", Json.num 1)]⟩,
       ⟨Json.str "f2", Json.obj [("k", Json.num 2)]⟩,
       ⟨Json.str "f3", Json.obj [("k", Json.num 3)]⟩]
      [⟨Json.str "f1", Json.obj [("k", Json.num 1)], some "out"⟩]
      ⟨Json.str "f2", Json.obj [("k", Json.num 2)], none⟩ [] rfl rfl

theorem updateR_updateR (r : List (String × Nat)) (p : String) (a b : Nat) :
    updateR (updateR r p a) p b = updateR r p b := by
  induction r with
  | nil => simp [updateR]
  | cons kv rest IH =>
      obtain ⟨k, w⟩ := kv
      by_cases h : k = p <;> simp [updateR, h, IH]

theorem lookupR_updateR_self (r : List (String × Nat)) (p : String) (v : Nat) :
    lookupR (updateR r p v) p = some v := by
  induction r with
  | nil => simp [updateR, lookupR]
  | cons kv rest IH =>
      obtain ⟨k, w⟩ := kv
      by_cases h : k = p <;> simp [updateR, lookupR, h, IH]

theorem lookupR_updateR_other (r : List (String × Nat)) (p q : String) (v : Nat)
    (h : q ≠ p) : lookupR (updateR r p v) q = lookupR r q := by
  have hpq : ¬(p = q) := fun hh => h hh.symm
  induction r with
  | nil => simp [updateR, lookupR, hpq]
  | cons kv rest IH =>
      obtain ⟨k, w⟩ := kv
      by_cases hk : k = p
      · subst hk
        simp [updateR, lookupR, hpq]
      · simp [updateR, lookupR, hk, IH]

theorem updateR_bound (r : List (String × Nat)) (p : String) (v : Nat)
    (hr : ∀ kv ∈ r, kv.2 ≤ 3) (hv : v ≤ 3) : ∀ kv ∈ updateR r p v, kv.2 ≤ 3 := by
  induction r with
  | nil =>
      intro kv hkv
      simp [updateR] at hkv
      simp [hkv, hv]
  | cons hd rest IH =>
      obtain ⟨k, w⟩ := hd
      intro kv hkv
      by_cases h : k = p
      · simp [updateR, h] at hkv
        rcases hkv with hkv | hkv
        · simp [hkv, hv]
        · exact hr kv (by simp [hkv])
      · simp [updateR, h] at hkv
        rcases hkv with hkv | hkv
        · exact hr kv (by simp [hkv])
        · exact IH (fun x hx => hr x (by simp [hx])) kv hkv

theorem attemptGo_fail (b : Behavior) (p : String)
    (hfail : ∀ k, attemptSucc (runAttempt b p k) = none) :
    ∀ (rem attempt : Nat) (r : List (String × Nat)),
      attemptGo b p rem attempt r =
        ((if rem = 0 then r else updateR r p (attempt + rem)), none) := by
  intro rem
  induction rem with
  | zero => intro attempt r; simp [attemptGo]
  | succ n IH =>
      intro attempt r
      rw [show attemptGo b p (n + 1) attempt r =
            (match attemptSucc (runAttempt b p (attempt + 1)) with
             | some s => (updateR r p (attempt + 1), some s)
             | none => attemptGo b p n (attempt + 1) (updateR r p (attempt + 1))) from rfl,
          hfail (attempt + 1), IH (attempt + 1) (updateR r p (attempt + 1))]
      cases n with
      | zero => simp
      | succ m =>
          simp only [Nat.succ_ne_zero, if_false, updateR_updateR]
          have harith : attempt + 1 + (m + 1) = attempt + (m + 1 + 1) := by omega
          rw [harith]

theorem attemptGo_stable (b : Behavior) (p q : String) (h : q ≠ p) :
    ∀ (rem attempt : Nat) (r : List (String × Nat)),
      lookupR (attemptGo b p rem attempt r).1 q = lookupR r q := by
  intro rem
  induction rem with
  | zero => intro attempt r; simp [attemptGo]
  | succ n IH =>
      intro attempt r
      rw [show attemptGo b p (n + 1) attempt r =
            (match attemptSucc (runAttempt b p (attempt + 1)) with
             | some s => (updateR r p (attempt + 1), some s)
             | none => attemptGo b p n (attempt + 1) (updateR r p (attempt + 1))) from rfl]
      cases attemptSucc (runAttempt b p (attempt + 1)) with
      | some s => exact lookupR_updateR_other r p q _ h
      | none => rw [IH, lookupR_updateR_other r p q _ h]

theorem attemptGo_bound (b : Behavior) (p : String) :
    ∀ (rem attempt : Nat) (r : List (String × Nat)), attempt + rem ≤ 3 →
      (∀ kv ∈ r, kv.2 ≤ 3) → ∀ kv ∈ (attemptGo b p rem attempt r).1, kv.2 ≤ 3 := by
  intro rem
  induction rem with
  | zero => intro attempt r _ hr; simpa [attemptGo] using hr
  | succ n IH =>
      intro attempt r hle hr
      rw [show attemptGo b p (n + 1) attempt r =
            (match attemptSucc (runAttempt b p (attempt + 1)) with
             | some s => (updateR r p (attempt + 1), some s)
             | none => attemptGo b p n (attempt + 1) (updateR r p (attempt + 1))) from rfl]
      have hub : ∀ kv ∈ updateR r p (attempt + 1), kv.2 ≤ 3 :=
        updateR_bound r p (attempt + 1) hr (by omega)
      cases attemptSucc (runAttempt b p (attempt + 1)) with
      | some s => exact hub
      | none => exact IH (attempt + 1) _ (by omega) hub


theorem chatGo_stable (b : Behavior) (ct : String) :
    ∀ (route : List String) (r : List (String × Nat)) (p : String), p ∉ route →
      lookupR (chatGo b ct route r).retries p = lookupR r p := by
  intro route
  induction route with
  | nil => intro r p _; rfl
  | cons q rest IH =>
      intro r p hp
      have hpq : p ≠ q := fun hh => hp (by simp [hh])
      have hrest : p ∉ rest := fun hh => hp (by simp [hh])
      have hst : lookupR (attemptLoop b q r).1 p = lookupR r p :=
        attemptGo_stable b q p hpq 3 0 r
      simp only [chatGo]
      cases hm : attemptLoop b q r with
      | mk r' res =>
          rw [hm] at hst
          cases res with
          | some s => simpa using hst
          | none => rw [IH r' p hrest]; simpa using hst

theorem chatGo_bound (b : Behavior) (ct : String) :
    ∀ (route : List String) (r : List (String × Nat)), (∀ kv ∈ r, kv.2 ≤ 3) →
      ∀ kv ∈ (chatGo b ct route r).retries, kv.2 ≤ 3 := by
  intro route
  induction route with
  | nil => intro r hr; exact hr
  | cons q rest IH =>
      intro r hr
      have hb : ∀ kv ∈ (attemptLoop b q r).1, kv.2 ≤ 3 :=
        attemptGo_bound b q 3 0 r (by omega) hr
      simp only [chatGo]
      cases hm : attemptLoop b q r with
      | mk r' res =>
          rw [hm] at hb
          cases res with
          | some s => simpa using hb
          | none => exact IH r' hb

theorem chatGo_all_fail (b : Behavior) (ct : String) :
    ∀ (route : List String) (r : List (String × Nat)),
      (∀ p ∈ route, ∀ k, attemptSucc (runAttempt b p k) = none) →
      ∃ r', chatGo b ct route r =
        ⟨false, none, ct, none, [], r', some "All providers failed after 3 retries each"⟩ := by
  intro route
  induction route with
  | nil => intro r _; exact ⟨r, rfl⟩
  | cons q rest IH =>
      intro r h
      have hq : ∀ k, attemptSucc (runAttempt b q k) = none := h q (by simp)
      have hl : attemptLoop b q r = (updateR r q 3, none) := by
        unfold attemptLoop
        rw [attemptGo_fail b q hq 3 0 r]
        simp
      simp only [chatGo, hl]
      exact IH (updateR r q 3) (fun p hp k => h p (by simp [hp]) k)

/-- C6 (confirmed): a provider that is reached and whose every attempt
fails is attempted exactly 3 times — the retry loop performs exactly
three updates and hands the route on with `retries[provider] = 3` — the
final outcome still reports `retries[provider] = 3` (the provider does
not recur later in the route), and no provider's reported attempt count
ever exceeds 3, for any behavior and request. -/
theorem c6_retry_bound :
    (∀ (b : Behavior) (p : String) (r : List (String × Nat)),
        (∀ k, attemptSucc (runAttempt b p k) = none) →
        attemptLoop b p r = (updateR r p 3, none)) ∧
    (∀ (b : Behavior) (ct p : String) (rest : List String) (r : List (String × Nat)),
        (∀ k, attemptSucc (runAttempt b p k) = none) →
        chatGo b ct (p :: rest) r = chatGo b ct rest (updateR r p 3)) ∧
    (∀ (b : Behavior) (ct p : String) (rest : List String) (r : List (String × Nat)),
        (∀ k, attemptSucc (runAttempt b p k) = none) → p ∉ rest →
        lookupR (chatGo b ct (p :: rest) r).retries p = some 3) ∧
    (∀ (b : Behavior) (req : ChatRequest) (kv : String × Nat),
        kv ∈ (chat b req).retries → kv.2 ≤ 3) := by
  have part1 : ∀ (b : Behavior) (p : String) (r : List (String × Nat)),
      (∀ k, attemptSucc (runAttempt b p k) = none) →
      attemptLoop b p r = (updateR r p 3, none) := by
    intro b p r hfail
    unfold attemptLoop
    rw [attemptGo_fail b p hfail 3 0 r]
    simp
  have part2 : ∀ (b : Behavior) (ct p : String) (rest : List String)
      (r : List (String × Nat)),
      (∀ k, attemptSucc (runAttempt b p k) = none) →
      chatGo b ct (p :: rest) r = chatGo b ct rest (updateR r p 3) := by
    intro b ct p rest r hfail
    simp only [chatGo, part1 b p r hfail]
  refine ⟨part1, part2, ?_, ?_⟩
  · intro b ct p rest r hfail hnot
    rw [part2 b ct p rest r hfail, chatGo_stable b ct rest _ p hnot,
        lookupR_updateR_self]
  · intro b req kv hkv
    exact chatGo_bound b req.chat_type (selectRoute req.chat_type) _
      (by intro x hx; simp at hx; rcases hx with hx | hx | hx <;> simp [hx]) kv hkv

theorem c6_retry_bound_witness :
    attemptLoop bAllFail "groq" [("groq", 0), ("ollama", 0)] =
      (updateR [("groq", 0), ("ollama", 0)] "groq" 3, none) ∧
    lookupR (chatGo bAllFail "groq" ["groq", "ollama"]
        [("groq", 0), ("ollama", 0)]).retries "groq" = some 3 ∧
    ("gemini", 3) ∈ (chat bAllFail ⟨"hi", "gemini"⟩).retries ∧
    (("gemini", 3) : String × Nat).2 ≤ 3 := by
  refine ⟨c6_retry_bound.1 bAllFail "groq" _ (fun k => rfl),
          c6_retry_bound.2.2.1 bAllFail "groq" "groq" ["ollama"] _ (fun k => rfl)
            (by decide),
          by decide,
          c6_retry_bound.2.2.2 bAllFail ⟨"hi", "gemini"⟩ ("gemini", 3) (by decide)⟩

/-- C9 (confirmed): when every provider in the route exhausts its
retries, `chat` returns (rather than raising — raised exceptions are the
`.error` results consumed inside `attemptSucc` at the attempt boundary)
an outcome with `ok = false`, `answer = none`, `tool_calls = []`, and a
non-empty error string. -/
theorem c9_all_fail_outcome (b : Behavior) (req : ChatRequest)
    (h : ∀ p ∈ selectRoute req.chat_type, ∀ k, attemptSucc (runAttempt b p k) = none) :
    (chat b req).ok = false ∧ (chat b req).answer = none ∧
    (chat b req).tool_calls = [] ∧
    (chat b req).error = some "All providers failed after 3 retries each" ∧
    "All providers failed after 3 retries each" ≠ "" := by
  obtain ⟨r', hr⟩ :=
    chatGo_all_fail b req.chat_type (selectRoute req.chat_type)
      [("gemini", 0), ("groq", 0), ("ollama", 0)] h
  have hc : chat b req = chatGo b req.chat_type (selectRoute req.chat_type)
      [("gemini", 0), ("groq", 0), ("ollama", 0)] := rfl
  rw [hc, hr]
  exact ⟨rfl, rfl, rfl, rfl, by decide⟩

theorem c9_all_fail_outcome_witness :
    (chat bAllFail ⟨"hi", "gemini"⟩).ok = false ∧
    (chat bAllFail ⟨"hi", "gemini"⟩).answer = none ∧
    (chat bAllFail ⟨"hi", "gemini"⟩).tool_calls = [] ∧
    (chat bAllFail ⟨"hi", "gemini"⟩).error =
      some "All providers failed after 3 retries each" ∧
    "All providers failed after 3 retries each" ≠ "" :=
  c9_all_fail_outcome bAllFail ⟨"hi", "gemini"⟩ (fun _ _ _ => rfl)

/-- C10 counterexample: on the spec's scenario (message "hello",
chat_type "ollama", empty catalog, planner answers the no-tool plan, then
a non-empty final answer) the outcome is indeed `ok = true` with no tool
calls, but `retries` is not the single-entry mapping the claim states:
line 484 pre-initializes entries for all three known providers, so the
result carries `gemini` and `groq` entries at 0 as well. -/
theorem c10_retries_counterexample :
    (chat (c10Behavior "Hi!") ⟨"hello", "ollama"⟩).ok = true ∧
    (chat (c10Behavior "Hi!") ⟨"hello", "ollama"⟩).tool_calls = [] ∧
    (chat (c10Behavior "Hi!") ⟨"hello", "ollama"⟩).retries =
      [("gemini", 0), ("groq", 0), ("ollama", 1)] ∧
    ([(("gemini" : String), (0 : Nat)), ("groq", 0), ("ollama", 1)]) ≠ [("ollama", 1)] :=
  ⟨rfl, rfl, rfl, by decide⟩

/-- C10 (corrected): the scenario yields `ok = true`, `tool_calls = []`,
and the retries mapping `\x7bgemini: 0, groq: 0, ollama: 1\x7d` — one
entry per known provider (all pre-initialized to 0), with the routed
provider's entry updated to 1; providers outside the route keep their
zero entries rather than being absent. -/
theorem c10_hello_outcome (ans : String) (h : ans ≠ "") :
    chat (c10Behavior ans) ⟨"hello", "ollama"⟩ =
      ⟨true, some "ollama", "ollama", some ans, [],
       [("gemini", 0), ("groq", 0), ("ollama", 1)], none⟩ := by
  have hrun : runAttempt (c10Behavior ans) "ollama" 1 = .ok (some (ans, [])) := by
    have hp : _parse_tool_plan_text (_clean_json_like helloPlanText) =
        .ok ([], "greeting") := rfl
    simp [runAttempt, c10Behavior, hp, execSteps, h]
  have hloop : attemptLoop (c10Behavior ans) "ollama"
      [("gemini", 0), ("groq", 0), ("ollama", 0)] =
      ([("gemini", 0), ("groq", 0), ("ollama", 1)], some (ans, [])) := by
    unfold attemptLoop
    rw [show attemptGo (c10Behavior ans) "ollama" 3 0
          [("gemini", 0), ("groq", 0), ("ollama", 0)] =
        (match attemptSucc (runAttempt (c10Behavior ans) "ollama" 1) with
         | some s => (updateR [("gemini", 0), ("groq", 0), ("ollama", 0)] "ollama" 1,
                      some s)
         | none => attemptGo (c10Behavior ans) "ollama" 2 1
             (updateR [("gemini", 0), ("groq", 0), ("ollama", 0)] "ollama" 1)) from rfl,
        hrun]
    rfl
  have hc : chat (c10Behavior ans) ⟨"hello", "ollama"⟩ =
      (match attemptLoop (c10Behavior ans) "ollama"
          [("gemini", 0), ("groq", 0), ("ollama", 0)] with
       | (r', some s) => ⟨true, some "ollama", "ollama", some s.1, s.2, r', none⟩
       | (r', none) =>
           chatGo (c10Behavior ans) "ollama" [] r') := rfl
  rw [hc, hloop]

theorem c10_hello_outcome_witness :
    ("Hi!" : String) ≠ "" ∧
    chat (c10Behavior "Hi!") ⟨"hello", "ollama"⟩ =
      ⟨true, some "ollama", "ollama", some "Hi!", [],
       [("gemini", 0), ("groq", 0), ("ollama", 1)], none⟩ :=
  ⟨by decide, c10_hello_outcome "Hi!" (by decide)⟩


theorem stepListEmit_append :
    ∀ (xs : List Json) (steps : List StepD),
      stepListEmit xs steps =
        (steps ++ (stepListEmit xs []).1, (stepListEmit xs []).2) := by
  intro xs
  induction xs with
  | nil => intro steps; simp [stepListEmit]
  | cons x rest IH =>
      intro steps
      cases x with
      | obj f =>
          simp only [stepListEmit, List.nil_append]
          by_cases ht : truthy (pyOr (pyGet f "tool_name") (pyGet f "name")) = true
          · rw [if_pos ht, if_pos ht]
            have h1 := IH (steps ++ [(⟨pyOr (pyGet f "tool_name") (pyGet f "name"),
                pyOr (pyGet f "arguments") (Json.obj [])⟩ : StepD)])
            have h2 := IH [(⟨pyOr (pyGet f "tool_name") (pyGet f "name"),
                pyOr (pyGet f "arguments") (Json.obj [])⟩ : StepD)]
            rw [h1, h2]
            simp
          · rw [if_neg ht, if_neg ht, IH steps]
      | null => simp [stepListEmit]
      | bool b => simp [stepListEmit]
      | num n => simp [stepListEmit]
      | str s => simp [stepListEmit]
      | arr ys => simp [stepListEmit]

theorem stepListEmit_no_raise :
    ∀ (xs : List Json) (steps : List StepD), allObjs xs = true →
      (stepListEmit xs steps).2 = false := by
  intro xs
  induction xs with
  | nil => intro steps _; simp [stepListEmit]
  | cons x rest IH =>
      intro steps hall
      cases x with
      | obj f =>
          have hrest : allObjs rest = true := by
            simp [allObjs] at hall ⊢
            exact hall
          simp only [stepListEmit]
          split <;> exact IH _ hrest
      | null => simp [allObjs] at hall
      | bool b => simp [allObjs] at hall
      | num n => simp [allObjs] at hall
      | str s => simp [allObjs] at hall
      | arr ys => simp [allObjs] at hall

theorem aliasLoop_skip :
    ∀ (keys : List String) (fields : List (String × Json)) (steps : List StepD)
      (r : String), (∀ k ∈ keys, isListVal (jget fields k) = false) →
      aliasLoop keys fields steps r = (steps, r) := by
  intro keys
  induction keys with
  | nil => intro fields steps r _; rfl
  | cons key more IH =>
      intro fields steps r h
      have hk := h key (by simp)
      have hmore : ∀ k ∈ more, isListVal (jget fields k) = false :=
        fun k hkm => h k (by simp [hkm])
      cases hj : jget fields key with
      | none =>
          simp only [aliasLoop, hj]
          exact IH fields steps r hmore
      | some v =>
          cases v with
          | arr xs => rw [hj] at hk; simp [isListVal] at hk
          | null => simp only [aliasLoop, hj]; exact IH fields steps r hmore
          | bool b => simp only [aliasLoop, hj]; exact IH fields steps r hmore
          | num n => simp only [aliasLoop, hj]; exact IH fields steps r hmore
          | str s => simp only [aliasLoop, hj]; exact IH fields steps r hmore
          | obj kvs => simp only [aliasLoop, hj]; exact IH fields steps r hmore

theorem aliasLoop_append :
    ∀ (keys : List String) (fields : List (String × Json)) (steps : List StepD)
      (reason : String),
      aliasLoop keys fields steps reason =
        (steps ++ (aliasLoop keys fields [] reason).1,
         (aliasLoop keys fields [] reason).2) := by
  intro keys
  induction keys with
  | nil => intro fields steps reason; simp [aliasLoop]
  | cons key more IH =>
      intro fields steps reason
      cases hj : jget fields key with
      | none =>
          simp only [aliasLoop, hj]
          exact IH fields steps reason
      | some v =>
          cases v with
          | arr xs =>
              simp only [aliasLoop, hj]
              rcases hE : stepListEmit xs [] with ⟨E, flag⟩
              have hL : stepListEmit xs steps = (steps ++ E, flag) := by
                rw [stepListEmit_append xs steps, hE]
              rw [hL]
              cases flag with
              | true => simp
              | false =>
                  simp only []
                  rw [IH fields (steps ++ E) (reasonUpd fields reason),
                      IH fields E (reasonUpd fields reason)]
                  simp
          | null => simp only [aliasLoop, hj]; exact IH fields steps reason
          | bool b => simp only [aliasLoop, hj]; exact IH fields steps reason
          | num n => simp only [aliasLoop, hj]; exact IH fields steps reason
          | str s => simp only [aliasLoop, hj]; exact IH fields steps reason
          | obj kvs => simp only [aliasLoop, hj]; exact IH fields steps reason

theorem aliasLoop_steps_indep :
    ∀ (keys : List String) (fields : List (String × Json)) (steps : List StepD)
      (r r' : String),
      (aliasLoop keys fields steps r).1 = (aliasLoop keys fields steps r').1 := by
  intro keys
  induction keys with
  | nil => intro fields steps r r'; rfl
  | cons key more IH =>
      intro fields steps r r'
      cases hj : jget fields key with
      | none =>
          simp only [aliasLoop, hj]
          exact IH fields steps r r'
      | some v =>
          cases v with
          | arr xs =>
              simp only [aliasLoop, hj]
              rcases hE : stepListEmit xs steps with ⟨E, flag⟩
              cases flag with
              | true => simp
              | false =>
                  simp only []
                  exact IH fields E (reasonUpd fields r) (reasonUpd fields r')
          | null => simp only [aliasLoop, hj]; exact IH fields steps r r'
          | bool b => simp only [aliasLoop, hj]; exact IH fields steps r r'
          | num n => simp only [aliasLoop, hj]; exact IH fields steps r r'
          | str s => simp only [aliasLoop, hj]; exact IH fields steps r r'
          | obj kvs => simp only [aliasLoop, hj]; exact IH fields steps r r'

theorem processFragment_append (j : Json) (steps : List StepD) (r : String) :
    processFragment j steps r =
      (steps ++ (processFragment j [] r).1, (processFragment j [] r).2) := by
  cases j with
  | obj fields =>
      simp only [processFragment]
      by_cases hc : (hasKey fields "tool_name" || hasKey fields "use_tool") = true
      · rw [if_pos hc, if_pos hc]
        by_cases hs : (truthy (pyGet fields "use_tool") &&
            truthy (pyGet fields "tool_name")) = true
        · rw [if_pos hs, if_pos hs]
          simp only [List.nil_append]
          have h1 := aliasLoop_append ["tool_plan", "steps", "calls", "tools"] fields
            (steps ++ [(⟨pyGet fields "tool_name",
              pyOr (pyGet fields "arguments") (Json.obj [])⟩ : StepD)])
            (reasonUpd fields r)
          have h2 := aliasLoop_append ["tool_plan", "steps", "calls", "tools"] fields
            [(⟨pyGet fields "tool_name",
              pyOr (pyGet fields "arguments") (Json.obj [])⟩ : StepD)]
            (reasonUpd fields r)
          rw [h1, h2]
          simp
        · rw [if_neg hs, if_neg hs]
          exact aliasLoop_append ["tool_plan", "steps", "calls", "tools"] fields steps
            (reasonUpd fields r)
      · rw [if_neg hc, if_neg hc]
        exact aliasLoop_append ["tool_plan", "steps", "calls", "tools"] fields steps r
  | arr xs =>
      simp only [processFragment]
      rw [stepListEmit_append xs steps]
  | null => simp [processFragment]
  | bool b => simp [processFragment]
  | num n => simp [processFragment]
  | str s => simp [processFragment]

theorem processFragment_steps_indep (j : Json) (steps : List StepD) (r r' : String) :
    (processFragment j steps r).1 = (processFragment j steps r').1 := by
  cases j with
  | obj fields =>
      simp only [processFragment]
      by_cases hc : (hasKey fields "tool_name" || hasKey fields "use_tool") = true
      · rw [if_pos hc, if_pos hc]
        by_cases hs : (truthy (pyGet fields "use_tool") &&
            truthy (pyGet fields "tool_name")) = true
        · rw [if_pos hs]
          exact aliasLoop_steps_indep ["tool_plan", "steps", "calls", "tools"] fields _
            (reasonUpd fields r) (reasonUpd fields r')
        · rw [if_neg hs]
          exact aliasLoop_steps_indep ["tool_plan", "steps", "calls", "tools"] fields steps
            (reasonUpd fields r) (reasonUpd fields r')
      · rw [if_neg hc, if_neg hc]
        exact aliasLoop_steps_indep ["tool_plan", "steps", "calls", "tools"] fields steps r r'
  | arr xs => rfl
  | null => rfl
  | bool b => rfl
  | num n => rfl
  | str s => rfl

theorem processOne_append (p : String) (steps : List StepD) (r : String) :
    processOne p steps r = (steps ++ (processOne p [] r).1, (processOne p [] r).2) := by
  unfold processOne
  cases loads p with
  | error e => simp
  | ok j => exact processFragment_append j steps r

theorem processOne_steps_indep (p : String) (steps : List StepD) (r r' : String) :
    (processOne p steps r).1 = (processOne p steps r').1 := by
  unfold processOne
  cases loads p with
  | error e => rfl
  | ok j => exact processFragment_steps_indep j steps r r'

theorem processOne_unrecognizable (p : String) (steps : List StepD) (r : String)
    (h : fragUnrecognizable p = true) : processOne p steps r = (steps, r) := by
  unfold processOne
  unfold fragUnrecognizable at h
  cases hl : loads p with
  | error e => rfl
  | ok j =>
      rw [hl] at h
      cases j with
      | obj fields =>
          simp only [recognizableB, Bool.not_eq_true', Bool.or_eq_false_iff] at h
          obtain ⟨⟨⟨⟨⟨h1, h2⟩, h3⟩, h4⟩, h5⟩, h6⟩ := h
          simp only [processFragment]
          rw [if_neg (by simp [h1, h2])]
          exact aliasLoop_skip ["tool_plan", "steps", "calls", "tools"] fields steps r
            (by intro k hk; simp at hk; rcases hk with rfl | rfl | rfl | rfl <;> assumption)
      | arr xs => simp [recognizableB] at h
      | null => rfl
      | bool b => rfl
      | num n => rfl
      | str s => rfl

theorem parseFragments_unrecognizable :
    ∀ (parts : List String) (steps : List StepD) (r : String),
      (∀ p ∈ parts, fragUnrecognizable p = true) →
      parseFragments parts steps r = (steps, r) := by
  intro parts
  induction parts with
  | nil => intro steps r _; rfl
  | cons p rest IH =>
      intro steps r h
      simp only [parseFragments]
      rw [processOne_unrecognizable p steps r (h p (by simp))]
      exact IH steps r (fun q hq => h q (by simp [hq]))

/-- C5 counterexample: two legacy fragments carrying reasons "first" and
"second"; the merged outcome's reason is "second" — a later fragment's
reason replaces the earlier non-empty one, contradicting
"first non-empty reason wins". -/
theorem c5_reason_last_wins_counterexample :
    _parse_tool_plan_text
        "\x7b\"use_tool\": false, \"reason\": \"first\"\x7d \x7b\"use_tool\": false, \"reason\": \"second\"\x7d" =
      .ok ([], "second") ∧
    ("second" : String) ≠ "first" :=
  ⟨rfl, by decide⟩

/-- C5 (corrected): when several fragments merge into one outcome the
emitted steps are concatenated in fragment order (each fragment's
contribution independent of the accumulated state), but the outcome's
reason is the result of folding the per-fragment reason assignment
`reason = str(obj.get("reason", reason))` left to right: a fragment
bearing a `reason` key overwrites the current value unconditionally
(last assignment wins), and a fragment without one leaves it unchanged
— not "first non-empty wins".  The third conjunct isolates the
overwrite: a legacy-style fragment with a `reason` key and no plan-list
keys sets the reason to `str` of that value regardless of the previously
accumulated reason. -/
theorem c5_fragment_merge :
    (∀ (parts : List String) (steps : List StepD) (reason : String),
        (parseFragments parts steps reason).1 =
          steps ++ (parts.map (fun p => (processOne p [] "").1)).flatten) ∧
    (∀ (parts : List String) (steps : List StepD) (reason : String),
        (parseFragments parts steps reason).2 =
          parts.foldl (fun racc p => (processOne p [] racc).2) reason) ∧
    (∀ (fields : List (String × Json)) (v : Json) (steps : List StepD) (r : String),
        (hasKey fields "tool_name" || hasKey fields "use_tool") = true →
        jget fields "reason" = some v →
        (∀ k ∈ ["tool_plan", "steps", "calls", "tools"],
          isListVal (jget fields k) = false) →
        (processFragment (.obj fields) steps r).2 = pyStr v) := by
  refine ⟨?_, ?_, ?_⟩
  · intro parts
    induction parts with
    | nil => intro steps reason; simp [parseFragments]
    | cons p rest IH =>
        intro steps reason
        simp only [parseFragments, List.map_cons, List.flatten]
        rw [IH]
        rw [processOne_append p steps reason]
        rw [processOne_steps_indep p [] reason ""]
        simp
  · intro parts
    induction parts with
    | nil => intro steps reason; simp [parseFragments]
    | cons p rest IH =>
        intro steps reason
        simp only [parseFragments, List.foldl_cons]
        rw [IH]
        rw [processOne_append p steps reason]
  · intro fields v steps r hc hv hlists
    simp only [processFragment]
    rw [if_pos hc]
    rw [aliasLoop_skip ["tool_plan", "steps", "calls", "tools"] fields _ _ hlists]
    simp [reasonUpd, hv]

theorem c5_fragment_merge_witness :
    ((hasKey [("use_tool", Json.bool false), ("reason", Json.str "late")] "tool_name" ||
      hasKey [("use_tool", Json.bool false), ("reason", Json.str "late")] "use_tool") = true) ∧
    (processFragment
        (.obj [("use_tool", Json.bool false), ("reason", Json.str "late")])
        [] "early").2 = pyStr (Json.str "late") := by
  refine ⟨by decide, ?_⟩
  exact c5_fragment_merge.2.2 [("use_tool", Json.bool false), ("reason", Json.str "late")]
    (Json.str "late") [] "early" (by decide) rfl
    (by intro k hk; simp at hk; rcases hk with rfl | rfl | rfl | rfl <;> rfl)

/-- C4 counterexample: the plural boolean key `use_tools` is not
recognized by the legacy handler (both branches test only `use_tool`), so
an object carrying `use_tools: true` with a tool name emits no step at
all, where the claim demands exactly one. -/
theorem c4_use_tools_plural_counterexample :
    _parse_tool_plan_text
        "\x7b\"use_tools\": true, \"tool_name\": \"f\", \"arguments\": \x7b\x7d\x7d" =
      .ok ([], "") ∧
    ∀ (st : StepD) (rs : String),
      _parse_tool_plan_text
          "\x7b\"use_tools\": true, \"tool_name\": \"f\", \"arguments\": \x7b\x7d\x7d" ≠
        .ok ([st], rs) := by
  refine ⟨rfl, ?_⟩
  intro st rs h
  rw [show _parse_tool_plan_text
        "\x7b\"use_tools\": true, \"tool_name\": \"f\", \"arguments\": \x7b\x7d\x7d" =
      Except.ok (([] : List StepD), ("" : String)) from rfl] at h
  simp at h

/-- C4 (corrected): the legacy single-tool schema recognizes only the
singular boolean key `use_tool` (the plural `use_tools` is ignored).  For
an object carrying `use_tool` as a boolean, a string `tool_name`, and no
plan-list keys, both normalization paths emit exactly one step with that
name (arguments defaulted through `or \x7b\x7d`) when the boolean is
true and the name non-empty, and no step when the boolean is false or
the name is missing. -/
theorem c4_legacy_use_tool_schema :
    ∀ (fields : List (String × Json)) (bb : Bool) (steps0 : List StepD) (r0 : String),
      jget fields "use_tool" = some (.bool bb) →
      (∀ k ∈ ["tool_plan", "steps", "calls", "tools"],
        isListVal (jget fields k) = false) →
      ((∀ name : String, bb = true → jget fields "tool_name" = some (.str name) →
          name ≠ "" →
          normalizeDirect (.obj fields) =
            .ok ([⟨Json.str name, pyOr (pyGet fields "arguments") (Json.obj [])⟩],
                 reasonUpd fields "") ∧
          processFragment (.obj fields) steps0 r0 =
            (steps0 ++ [⟨Json.str name, pyOr (pyGet fields "arguments") (Json.obj [])⟩],
             reasonUpd fields r0)) ∧
       (bb = false →
          normalizeDirect (.obj fields) = .ok ([], reasonUpd fields "") ∧
          processFragment (.obj fields) steps0 r0 = (steps0, reasonUpd fields r0)) ∧
       (jget fields "tool_name" = none →
          normalizeDirect (.obj fields) = .ok ([], reasonUpd fields "") ∧
          processFragment (.obj fields) steps0 r0 = (steps0, reasonUpd fields r0))) := by
  intro fields bb steps0 r0 hut hlists
  have htp := hlists "tool_plan" (by simp)
  have hkey : hasKey fields "use_tool" = true := by simp [hasKey, hut]
  have hkeyor : (hasKey fields "tool_name" || hasKey fields "use_tool") = true := by
    simp [hkey]
  have hdirect : normalizeDirect (.obj fields) =
      .ok ((if truthy (pyGet fields "use_tool") && truthy (pyGet fields "tool_name") then
              [⟨pyGet fields "tool_name", pyOr (pyGet fields "arguments") (Json.obj [])⟩]
            else []), reasonUpd fields "") := by
    cases hp : jget fields "tool_plan" with
    | none => simp [normalizeDirect, hp, hkey]
    | some v =>
        rw [hp] at htp
        cases v with
        | arr xs => simp [isListVal] at htp
        | null => simp [normalizeDirect, hp, hkey]
        | bool b2 => simp [normalizeDirect, hp, hkey]
        | num n => simp [normalizeDirect, hp, hkey]
        | str s => simp [normalizeDirect, hp, hkey]
        | obj kvs => simp [normalizeDirect, hp, hkey]
  have hfrag : processFragment (.obj fields) steps0 r0 =
      ((if truthy (pyGet fields "use_tool") && truthy (pyGet fields "tool_name") then
          steps0 ++ [⟨pyGet fields "tool_name",
                      pyOr (pyGet fields "arguments") (Json.obj [])⟩]
        else steps0), reasonUpd fields r0) := by
    simp only [processFragment]
    rw [if_pos hkeyor,
        aliasLoop_skip ["tool_plan", "steps", "calls", "tools"] fields _ _ hlists]
  refine ⟨?_, ?_, ?_⟩
  · intro name hb hname hne
    subst hb
    have hpgu : pyGet fields "use_tool" = Json.bool true := by simp [pyGet, hut]
    have hpgn : pyGet fields "tool_name" = Json.str name := by simp [pyGet, hname]
    constructor
    · rw [hdirect, hpgu, hpgn]
      simp [truthy, hne]
    · rw [hfrag, hpgu, hpgn]
      simp [truthy, hne]
  · intro hb
    subst hb
    have hpgu : pyGet fields "use_tool" = Json.bool false := by simp [pyGet, hut]
    constructor
    · rw [hdirect, hpgu]; simp [truthy]
    · rw [hfrag, hpgu]; simp [truthy]
  · intro hname
    have hpgn : pyGet fields "tool_name" = Json.null := by simp [pyGet, hname]
    constructor
    · rw [hdirect, hpgn]; simp [truthy]
    · rw [hfrag, hpgn]; simp [truthy]

theorem c4_legacy_use_tool_schema_witness :
    jget [("use_tool", Json.bool true), ("tool_name", Json.str "f"),
          ("arguments", Json.obj [("k", Json.num 1)])] "use_tool" =
      some (Json.bool true) ∧
    normalizeDirect (Json.obj [("use_tool", Json.bool true), ("tool_name", Json.str "f"),
          ("arguments", Json.obj [("k", Json.num 1)])]) =
      .ok ([⟨Json.str "f", Json.obj [("k", Json.num 1)]⟩], "") ∧
    processFragment (Json.obj [("use_tool", Json.bool true), ("tool_name", Json.str "f"),
          ("arguments", Json.obj [("k", Json.num 1)])]) [] "" =
      ([⟨Json.str "f", Json.obj [("k", Json.num 1)]⟩], "") ∧
    normalizeDirect (Json.obj [("use_tool", Json.bool false), ("reason", Json.str "no")]) =
      .ok ([], "no") := by
  have hyp : ∀ k ∈ ["tool_plan", "steps", "calls", "tools"],
      isListVal (jget [("use_tool", Json.bool true), ("tool_name", Json.str "f"),
        ("arguments", Json.obj [("k", Json.num 1)])] k) = false := by
    intro k hk; simp at hk; rcases hk with rfl | rfl | rfl | rfl <;> rfl
  have hyp2 : ∀ k ∈ ["tool_plan", "steps", "calls", "tools"],
      isListVal (jget [("use_tool", Json.bool false), ("reason", Json.str "no")] k) =
        false := by
    intro k hk; simp at hk; rcases hk with rfl | rfl | rfl | rfl <;> rfl
  have hA := (c4_legacy_use_tool_schema
    [("use_tool", Json.bool true), ("tool_name", Json.str "f"),
     ("arguments", Json.obj [("k", Json.num 1)])] true [] "" rfl hyp).1 "f" rfl rfl
    (by decide)
  have hB := (c4_legacy_use_tool_schema
    [("use_tool", Json.bool false), ("reason", Json.str "no")] false [] "" rfl hyp2).2.1 rfl
  exact ⟨rfl, hA.1.trans rfl, hA.2.trans rfl, hB.1.trans rfl⟩

theorem aliasDirect_ok :
    ∀ (keys : List String) (fields : List (String × Json)),
      (match firstAliasList keys fields with
       | some xs => allObjs xs = true
       | none => True) →
      exceptIsError (aliasDirect keys fields) = false := by
  intro keys
  induction keys with
  | nil => intro fields _; rfl
  | cons key more IH =>
      intro fields h
      cases hj : jget fields key with
      | none =>
          simp only [firstAliasList, hj] at h
          simp only [aliasDirect, hj]
          exact IH fields h
      | some v =>
          cases v with
          | arr xs =>
              simp only [firstAliasList, hj] at h
              simp only [aliasDirect, hj]
              rcases hE : stepListEmit xs [] with ⟨E, flag⟩
              have hf := stepListEmit_no_raise xs [] h
              rw [hE] at hf
              simp at hf
              subst hf
              rfl
          | null =>
              simp only [firstAliasList, hj] at h
              simp only [aliasDirect, hj]
              exact IH fields h
          | bool b =>
              simp only [firstAliasList, hj] at h
              simp only [aliasDirect, hj]
              exact IH fields h
          | num n =>
              simp only [firstAliasList, hj] at h
              simp only [aliasDirect, hj]
              exact IH fields h
          | str s =>
              simp only [firstAliasList, hj] at h
              simp only [aliasDirect, hj]
              exact IH fields h
          | obj kvs =>
              simp only [firstAliasList, hj] at h
              simp only [aliasDirect, hj]
              exact IH fields h

/-- C3 counterexample: `_parse_tool_plan_text` is not total — when the
whole-text JSON parse succeeds and a plan list contains a non-object
element, the `.get` call raises `AttributeError` out of the function
(there is no try/except around the direct branch): both `"[1]"` and an
object whose `tool_plan` list holds a bare number raise. -/
theorem c3_parse_raises_counterexample :
    exceptIsError (_parse_tool_plan_text "[1]") = true ∧
    exceptIsError (_parse_tool_plan_text "\x7b\"tool_plan\": [1]\x7d") = true :=
  ⟨rfl, rfl⟩

/-- C3 (corrected): the normalizer returns a `(steps, reason)` pair
without raising whenever the direct parse result's iterated plan list
contains only objects (`goodShape`; in particular whenever the direct
parse fails, since the fragment fallback path is total: every per-
fragment exception is swallowed by `continue`); and when the direct
parse fails and no fragment parses to a value bearing a recognizable
schema, the result is empty steps and empty reason — a parse failure is
not an error. -/
theorem c3_parse_totality :
    (∀ (s : String), (∀ j, loads s = .ok j → goodShape j = true) →
        exceptIsError (_parse_tool_plan_text s) = false) ∧
    (∀ (s : String), exceptIsError (loads s) = true →
        (∀ p ∈ _extract_json_objects s, fragUnrecognizable p = true) →
        _parse_tool_plan_text s = .ok ([], "")) := by
  constructor
  · intro s hg
    unfold _parse_tool_plan_text
    cases hl : loads s with
    | error e => rfl
    | ok j =>
        have hgs := hg j hl
        cases j with
        | obj fields =>
            cases hp : jget fields "tool_plan" with
            | some v =>
                cases v with
                | arr xs =>
                    simp only [goodShape, hp] at hgs
                    simp only [normalizeDirect, hp]
                    rcases hE : stepListEmit xs [] with ⟨E, flag⟩
                    have hf := stepListEmit_no_raise xs [] hgs
                    rw [hE] at hf
                    simp at hf
                    subst hf
                    rfl
                | null =>
                    simp only [goodShape, hp] at hgs
                    simp only [normalizeDirect, hp]
                    by_cases hk : hasKey fields "use_tool" = true
                    · rw [if_pos hk]; rfl
                    · rw [if_neg hk]
                      rw [if_neg hk] at hgs
                      apply aliasDirect_ok
                      cases hfa : firstAliasList ["steps", "calls", "tools"] fields with
                      | none => trivial
                      | some xs => rw [hfa] at hgs; exact hgs
                | bool b2 =>
                    simp only [goodShape, hp] at hgs
                    simp only [normalizeDirect, hp]
                    by_cases hk : hasKey fields "use_tool" = true
                    · rw [if_pos hk]; rfl
                    · rw [if_neg hk]
                      rw [if_neg hk] at hgs
                      apply aliasDirect_ok
                      cases hfa : firstAliasList ["steps", "calls", "tools"] fields with
                      | none => trivial
                      | some xs => rw [hfa] at hgs; exact hgs
                | num n =>
                    simp only [goodShape, hp] at hgs
                    simp only [normalizeDirect, hp]
                    by_cases hk : hasKey fields "use_tool" = true
                    · rw [if_pos hk]; rfl
                    · rw [if_neg hk]
                      rw [if_neg hk] at hgs
                      apply aliasDirect_ok
                      cases hfa : firstAliasList ["steps", "calls", "tools"] fields with
                      | none => trivial
                      | some xs => rw [hfa] at hgs; exact hgs
                | str s2 =>
                    simp only [goodShape, hp] at hgs
                    simp only [normalizeDirect, hp]
                    by_cases hk : hasKey fields "use_tool" = true
                    · rw [if_pos hk]; rfl
                    · rw [if_neg hk]
                      rw [if_neg hk] at hgs
                      apply aliasDirect_ok
                      cases hfa : firstAliasList ["steps", "calls", "tools"] fields with
                      | none => trivial
                      | some xs => rw [hfa] at hgs; exact hgs
                | obj kvs =>
                    simp only [goodShape, hp] at hgs
                    simp only [normalizeDirect, hp]
                    by_cases hk : hasKey fields "use_tool" = true
                    · rw [if_pos hk]; rfl
                    · rw [if_neg hk]
                      rw [if_neg hk] at hgs
                      apply aliasDirect_ok
                      cases hfa : firstAliasList ["steps", "calls", "tools"] fields with
                      | none => trivial
                      | some xs => rw [hfa] at hgs; exact hgs
            | none =>
                simp only [goodShape, hp] at hgs
                simp only [normalizeDirect, hp]
                by_cases hk : hasKey fields "use_tool" = true
                · rw [if_pos hk]; rfl
                · rw [if_neg hk]
                  rw [if_neg hk] at hgs
                  apply aliasDirect_ok
                  cases hfa : firstAliasList ["steps", "calls", "tools"] fields with
                  | none => trivial
                  | some xs => rw [hfa] at hgs; exact hgs
        | arr xs =>
            simp only [goodShape] at hgs
            simp only [normalizeDirect]
            rcases hE : stepListEmit xs [] with ⟨E, flag⟩
            have hf := stepListEmit_no_raise xs [] hgs
            rw [hE] at hf
            simp at hf
            subst hf
            rfl
        | null => rfl
        | bool b => rfl
        | num n => rfl
        | str s2 => rfl
  · intro s hl hfr
    unfold _parse_tool_plan_text
    cases hload : loads s with
    | error e =>
        rw [parseFragments_unrecognizable (_extract_json_objects s) [] "" hfr]
    | ok j => rw [hload] at hl; simp [exceptIsError] at hl

theorem c3_parse_totality_witness :
    exceptIsError (_parse_tool_plan_text "xx") = false ∧
    exceptIsError (loads "hello \x7b1\x7d world") = true ∧
    _parse_tool_plan_text "hello \x7b1\x7d world" = .ok ([], "") := by
  refine ⟨?_, rfl, ?_⟩
  · exact c3_parse_totality.1 "xx"
      (fun j hj => absurd ((show loads "xx" = Except.error "unexpected character"
        from rfl) ▸ hj) (fun hh => Except.noConfusion hh))
  · exact c3_parse_totality.2 "hello \x7b1\x7d world" rfl
      (fun p hp => by
        rw [show _extract_json_objects "hello \x7b1\x7d world" = ["\x7b1\x7d"] from rfl]
          at hp
        simp at hp
        rw [hp]
        rfl)
